import Mathlib

/-!
Verification of the lachesis/poset consensus core.

This file gives a shallow embedding of the poset consensus engine
(`poset.go`, `event.go` and friends) and proves properties of the
embedded definitions.  Go slices that distinguish nil from empty are
modelled as `Option (List _)`; Go maps are modelled as association
lists; Go `int64` is modelled as `Int`; store/graph recursion is
modelled with explicit fuel; ECDSA signature verification and block
signature verification are abstracted as boolean oracles passed in as
parameters.  Fallible Go calls return `Except PErr`.
-/

namespace Lachesis

/-- Error kinds surfaced by the embedded store and poset operations. -/
inductive PErr where
  | keyNotFound
  | fuelExhausted
  | invalidSignature
  | selfParentNotLast
  | otherParentUnknown
  | nilPeer
  deriving DecidableEq, Repr

/-- A participant, as in `peers.Peer`: public key in hex form, network
address, and the integer ID derived from the key. -/
structure Peer where
  pubKeyHex : String
  netAddr : String
  id : Int
  deriving DecidableEq, Repr

/-- The participants registry (`peers.Peers`), kept as a list ordered by ID. -/
abbrev Peers := List Peer

/-- Lookup in `participants.ByPubKey`. -/
def byPubKey (ps : Peers) (k : String) : Option Peer :=
  ps.find? (fun p => p.pubKeyHex = k)

/-- Lookup in `participants.ById`. -/
def byId (ps : Peers) (i : Int) : Option Peer :=
  ps.find? (fun p => p.id = i)

/-- The supermajority threshold computed in `NewPoset`:
`superMajority := 2*participants.Len()/3 + 1` (Go integer division). -/
def superMajorityOf (n : Nat) : Nat := 2 * n / 3 + 1

/-- The trust count computed in `NewPoset`:
`trustCount := int(math.Ceil(float64(n) / 3))`. -/
def trustCountOf (n : Nat) : Nat := (n + 2) / 3

/-- A block signature (`BlockSignature` in the proto).  The Go code
stores the validator's raw public key bytes and formats them as
`0x%X` when needed; we keep the formatted hex form directly. -/
structure BlockSignature where
  validatorHex : String
  index : Int
  signature : String
  deriving DecidableEq, Repr

/-- An internal transaction (peer add/remove directive). -/
structure InternalTransaction where
  txType : Nat
  peer : String
  deriving DecidableEq, Repr

end Lachesis

namespace Lachesis.PosetM

/-- The event body of the multi-parent `event.go` vintage
(`EventBody`): payload transactions (a Go slice, so nil is
distinguished from empty), internal transactions, parents with the
self-parent first, creator key bytes, per-creator index, and gossiped
block signatures. -/
structure EventBody where
  transactions : Option (List (List Nat))
  internalTransactions : List Lachesis.InternalTransaction
  parents : List String
  creator : List Nat
  index : Int
  blockSignatures : List Lachesis.BlockSignature
  deriving DecidableEq, Repr

/-- The event of the multi-parent `event.go` vintage. -/
structure Event where
  body : EventBody
  signature : String
  deriving DecidableEq, Repr

/-- `Event.IsLoaded`: true if the index is 0; otherwise true iff the
payload-transaction slice is non-nil and either it or the
internal-transaction list is non-empty. -/
def isLoaded (e : Event) : Bool :=
  if e.body.index == 0 then true
  else
    e.body.transactions.isSome &&
      (!(e.body.transactions.getD []).isEmpty ||
        !e.body.internalTransactions.isEmpty)

end Lachesis.PosetM

namespace Lachesis

/-- Value of a single hexadecimal digit, accepting both cases, as
`encoding/hex` does. -/
def hexDigitVal (c : Char) : Option Nat :=
  if '0' ≤ c ∧ c ≤ '9' then some (c.toNat - '0'.toNat)
  else if 'a' ≤ c ∧ c ≤ 'f' then some (c.toNat - 'a'.toNat + 10)
  else if 'A' ≤ c ∧ c ≤ 'F' then some (c.toNat - 'A'.toNat + 10)
  else none

/-- Decode a list of hex characters two at a time, as
`hex.DecodeString` does; an odd-length or non-hex input fails. -/
def hexDecodeList : List Char → Option (List Nat)
  | [] => some []
  | [_] => none
  | c1 :: c2 :: rest => do
    let h ← hexDigitVal c1
    let l ← hexDigitVal c2
    let r ← hexDecodeList rest
    pure ((16 * h + l) :: r)

/-- Decode a hex string to bytes (`hex.DecodeString`). -/
def hexDecode (s : String) : Option (List Nat) :=
  hexDecodeList s.data

/-- The helper `middleBit(ehex)`: strip the `0x` prefix, hex-decode the
rest (on a decode error the Go code logs and continues with a nil
slice), and return false exactly when the decoded slice is non-empty
and its middle byte is zero. -/
def middleBit (ehex : String) : Bool :=
  let hash := (hexDecodeList (ehex.data.drop 2)).getD []
  if hash.length > 0 && hash.getD (hash.length / 2) 1 == 0 then false
  else true

end Lachesis

namespace Lachesis

/-- A `RootEvent`: enough information about a pre-frame event to allow
inserting events on top of it. -/
structure RootEvent where
  hash : String
  creatorID : Int
  index : Int
  lamportTimestamp : Int
  round : Int
  deriving DecidableEq, Repr

/-- A `Root`: per-participant base of the poset, holding the proposed
round for the first child, the self-parent stub, and the map from a
child-event hash to the stub standing in for its out-of-frame
other-parent. -/
structure Root where
  nextRound : Int
  selfParent : RootEvent
  others : List (String × RootEvent)
  deriving DecidableEq, Repr

/-- An event of the single-other-parent poset vintage, following the
`EventMessage`/`EventBody` proto: body fields plus wire side-band,
flag table, witness proof and the mutable derived fields.  The SHA-256
hash of the encoded body is abstracted as the `hex` field. -/
structure Event where
  transactions : List (List Nat)
  internalTransactions : List InternalTransaction
  parents : List String
  creator : String
  index : Int
  blockSignatures : List BlockSignature
  signature : String
  flagTable : List (String × Int)
  witnessProof : List String
  selfParentIndex : Int
  otherParentCreatorID : Int
  otherParentIndex : Int
  creatorID : Int
  topologicalIndex : Int
  hex : String
  round : Option Int
  lamportTimestamp : Option Int
  roundReceived : Option Int
  deriving DecidableEq, Repr

/-- `Event.SelfParent`: the first parent hash, or the empty string. -/
def selfParent (e : Event) : String := e.parents.getD 0 ""

/-- `Event.OtherParent`: the second parent hash, or the empty string
(the core uses at most one other-parent). -/
def otherParent (e : Event) : String := e.parents.getD 1 ""

/-- Modelled from the spec: the `Event.IsLoaded` of the
single-other-parent vintage, whose event.go is not in the sources:
"An event is loaded iff it has Index 0 or carries at least one
transaction." -/
def eventIsLoaded (e : Event) : Bool :=
  e.index == 0 || !e.transactions.isEmpty

/-- Fame of a witness: undecided, famous, or not famous. -/
inductive Famous where
  | undefined
  | yes
  | no
  deriving DecidableEq, Repr

/-- Modelled from the spec: the per-event record of a `RoundInfo`
("per-event flags {witness?, famous}"); round.go is not in the
sources. -/
structure RoundEvent where
  witness : Bool
  famous : Famous
  deriving DecidableEq, Repr

/-- Modelled from the spec: a `RoundInfo` — the set of events assigned
to the round with their flags, the list of consensus events, and the
pending-queue marker used by DivideRounds. -/
structure RoundInfo where
  events : List (String × RoundEvent)
  consensusEvents : List String
  queued : Bool
  deriving DecidableEq, Repr

/-- Modelled from the spec: `RoundInfo.Witnesses` — the events flagged
as witnesses. -/
def RoundInfo.witnesses (ri : RoundInfo) : List String :=
  (ri.events.filter (fun p => p.2.witness)).map (fun p => p.1)

/-- Modelled from the spec: `RoundInfo.IsDecided(x)` — x is a witness
with famous already decided. -/
def RoundInfo.isDecided (ri : RoundInfo) (x : String) : Bool :=
  match ri.events.lookup x with
  | some re => re.witness && re.famous != Famous.undefined
  | none => false

/-- Modelled from the spec: `RoundInfo.WitnessesDecided` — every
witness of the round has famous different from Undefined. -/
def RoundInfo.witnessesDecided (ri : RoundInfo) : Bool :=
  ri.events.all (fun p => !p.2.witness || p.2.famous != Famous.undefined)

/-- Modelled from the spec: `RoundInfo.FamousWitnesses` — the
witnesses whose famous flag is True. -/
def RoundInfo.famousWitnesses (ri : RoundInfo) : List String :=
  (ri.events.filter (fun p => p.2.witness && p.2.famous == Famous.yes)).map
    (fun p => p.1)

/-- Modelled from the spec: `RoundInfo.AddEvent` — record an event in
the round with its witness flag, fame undecided, if not yet present. -/
def RoundInfo.addEvent (ri : RoundInfo) (x : String) (w : Bool) : RoundInfo :=
  match ri.events.lookup x with
  | some _ => ri
  | none =>
    { ri with events := ri.events ++ [(x, { witness := w, famous := Famous.undefined })] }

/-- Modelled from the spec: `RoundInfo.SetFame(x, v)` — set the famous
flag of witness x. -/
def RoundInfo.setFame (ri : RoundInfo) (x : String) (v : Bool) : RoundInfo :=
  { ri with
    events := ri.events.map (fun p =>
      if p.1 = x then (p.1, { p.2 with famous := if v then Famous.yes else Famous.no })
      else p) }

/-- Modelled from the spec: `RoundInfo.SetConsensusEvent(x)` — append
x to the round's consensus-event list. -/
def RoundInfo.setConsensusEvent (ri : RoundInfo) (x : String) : RoundInfo :=
  { ri with consensusEvents := ri.consensusEvents ++ [x] }

/-- A committed block: index, round-received, frame hash, transactions
in consensus order, and the accumulated block signatures. -/
structure Block where
  index : Int
  roundReceived : Int
  frameHash : String
  transactions : List (List Nat)
  signatures : List BlockSignature
  deriving DecidableEq, Repr

/-- Modelled from the spec: `Block.SetSignature` — attach a signature;
signatures are keyed by validator, so an existing signature by the
same validator is replaced. -/
def Block.setSignature (b : Block) (s : BlockSignature) : Block :=
  if b.signatures.any (fun t => t.validatorHex = s.validatorHex) then
    { b with signatures := b.signatures.map (fun t =>
        if t.validatorHex = s.validatorHex then s else t) }
  else { b with signatures := b.signatures ++ [s] }

/-- A frame: round-received, the roots ordered by participant, and the
consensus events sorted by Lamport timestamp. -/
structure Frame where
  round : Int
  roots : List Root
  events : List Event
  deriving DecidableEq, Repr

/-- Modelled from the spec: the abstract Store consumed by the
consensus core (§6 of the spec); the concrete stores are not in the
sources.  Events, rounds, roots and blocks are association lists;
`participantEvents` holds each creator's event hashes in ascending
index order; `consensusEvents` is the committed order. -/
structure Store where
  events : List (String × Event)
  participantEvents : List (String × List String)
  roots : List (String × Root)
  rounds : List (Int × RoundInfo)
  blocks : List (Int × Block)
  consensusEvents : List String
  deriving DecidableEq, Repr

/-- `Store.GetEvent`. -/
def getEvent (st : Store) (x : String) : Option Event :=
  st.events.lookup x

/-- Modelled from the spec: `Store.SetEvent` — insert or replace the
event and, when new, append its hash to the creator's list. -/
def setEvent (st : Store) (e : Event) : Store :=
  match st.events.lookup e.hex with
  | some _ =>
    { st with events := st.events.map (fun p => if p.1 = e.hex then (p.1, e) else p) }
  | none =>
    { st with
      events := st.events ++ [(e.hex, e)]
      participantEvents :=
        match st.participantEvents.lookup e.creator with
        | some _ =>
          st.participantEvents.map (fun p =>
            if p.1 = e.creator then (p.1, p.2 ++ [e.hex]) else p)
        | none => st.participantEvents ++ [(e.creator, [e.hex])] }

/-- `Store.GetRoot`. -/
def getRoot (st : Store) (creator : String) : Option Root :=
  st.roots.lookup creator

/-- `Store.RootsBySelfParent`: the roots keyed by their self-parent
hash. -/
def rootsBySelfParent (st : Store) : List (String × Root) :=
  st.roots.map (fun p => (p.2.selfParent.hash, p.2))

/-- Modelled from the spec: `Store.LastEventFrom(pubkey)` — the
creator's last event hash, or its root's self-parent hash with
isRoot = true when the creator has no events yet; unknown creators
are a lookup error. -/
def lastEventFrom (st : Store) (creator : String) : Except PErr (String × Bool) :=
  match st.participantEvents.lookup creator with
  | none => .error .keyNotFound
  | some es =>
    match es.getLast? with
    | some h => .ok (h, false)
    | none =>
      match getRoot st creator with
      | some root => .ok (root.selfParent.hash, true)
      | none => .error .keyNotFound

/-- `Store.GetRound`. -/
def getRound (st : Store) (i : Int) : Option RoundInfo :=
  st.rounds.lookup i

/-- Modelled from the spec: `Store.SetRound` — insert or replace. -/
def setRound (st : Store) (i : Int) (ri : RoundInfo) : Store :=
  match st.rounds.lookup i with
  | some _ =>
    { st with rounds := st.rounds.map (fun p => if p.1 = i then (p.1, ri) else p) }
  | none => { st with rounds := st.rounds ++ [(i, ri)] }

/-- Modelled from the spec: `Store.LastRound()` — the highest round
index present, -1 when none. -/
def lastRound (st : Store) : Int :=
  st.rounds.foldl (fun m p => max m p.1) (-1)

/-- `Store.GetBlock`. -/
def getBlock (st : Store) (i : Int) : Option Block :=
  st.blocks.lookup i

/-- Modelled from the spec: `Store.SetBlock` — insert or replace. -/
def setBlock (st : Store) (b : Block) : Store :=
  match st.blocks.lookup b.index with
  | some _ =>
    { st with blocks := st.blocks.map (fun p => if p.1 = b.index then (p.1, b) else p) }
  | none => { st with blocks := st.blocks ++ [(b.index, b)] }

/-- Modelled from the spec: `Store.LastBlockIndex()` — the highest
block index present, -1 when none. -/
def lastBlockIndex (st : Store) : Int :=
  st.blocks.foldl (fun m p => max m p.1) (-1)

/-- Modelled from the spec: `Store.AddConsensusEvent` — append the
event to the committed order. -/
def addConsensusEvent (st : Store) (e : Event) : Store :=
  { st with consensusEvents := st.consensusEvents ++ [e.hex] }

/-- The Go sentinel `math.MinInt64`, used by `lamportTimestamp2` as
"other-parent timestamp unknown". -/
def minInt64 : Int := -(2 ^ 63)

/-- `lamportTimestamp2` (with the memoising `lamportTimestamp` wrapper
inlined, caches dropped): the root case returns the root's recorded
timestamp; otherwise 1 plus the max of the self-parent's timestamp
(taken from the creator's root when the event sits directly on it)
and, when an other-parent exists, the other-parent's timestamp (from
recursion when the event is known, from `Root.Others` when pre-frame,
and the MinInt64 sentinel otherwise).  Fuel bounds the recursion. -/
def lamportTimestamp : Nat → Store → String → Except PErr Int
  | 0, _, _ => .error .fuelExhausted
  | n + 1, st, x =>
    match (rootsBySelfParent st).lookup x with
    | some r => .ok r.selfParent.lamportTimestamp
    | none =>
      match getEvent st x with
      | none => .error .keyNotFound
      | some ex =>
        match getRoot st ex.creator with
        | none => .error .keyNotFound
        | some root =>
          match
            (if selfParent ex = root.selfParent.hash then
              .ok root.selfParent.lamportTimestamp
            else lamportTimestamp n st (selfParent ex) : Except PErr Int) with
          | .error e => .error e
          | .ok plt =>
            if otherParent ex ≠ "" then
              match
                (match getEvent st (otherParent ex) with
                | some _ => lamportTimestamp n st (otherParent ex)
                | none =>
                  match root.others.lookup x with
                  | some other =>
                    if other.hash = otherParent ex then .ok other.lamportTimestamp
                    else .ok minInt64
                  | none => .ok minInt64 : Except PErr Int) with
              | .error e => .error e
              | .ok opLT => .ok ((if opLT > plt then opLT else plt) + 1)
            else .ok (plt + 1)

/-- `lamportTimestampDiff(x, y) = lamport(y) - lamport(x)`. -/
def lamportTimestampDiff (lf : Nat) (st : Store) (x y : String) : Except PErr Int := do
  let xlt ← lamportTimestamp lf st x
  let ylt ← lamportTimestamp lf st y
  pure (ylt - xlt)

/-- `ancestor2` with the `ancestor` guard inlined at every level
(caches dropped): equality is ancestry; an unknown x is an ancestor of
y only via a root's `Others` entry for y; a Lamport-timestamp check
cuts impossible cases; same-creator pairs compare indices (also
against the root stub when y is pre-frame); otherwise recurse through
the self-parent and then the other-parent.  `lf` is the fuel given to
Lamport-timestamp calls, the second argument bounds the ancestry
recursion. -/
def ancestorGo (lf : Nat) : Nat → Peers → Store → String → String → Except PErr Bool
  | 0, _, _, _, _ => .error .fuelExhausted
  | n + 1, ps, st, x, y =>
    if x = "" ∨ y = "" then .ok false
    else if x = y then .ok true
    else
      match getEvent st x with
      | none =>
        match (st.roots.filterMap (fun pr => pr.2.others.lookup y)).head? with
        | some other => .ok (other.hash = x)
        | none => .ok false
      | some ex =>
        match lamportTimestampDiff lf st x y with
        | .error e => .error e
        | .ok d =>
          if d > 0 then .ok false
          else
            let rest : Except PErr Bool :=
              match ancestorGo lf n ps st (selfParent ex) y with
              | .error e => .error e
              | .ok true => .ok true
              | .ok false => ancestorGo lf n ps st (otherParent ex) y
            match getEvent st y with
            | none =>
              match (rootsBySelfParent st).lookup y with
              | some root =>
                match byId ps root.selfParent.creatorID with
                | none => .error .nilPeer
                | some peer =>
                  if ex.creator = peer.pubKeyHex then
                    .ok (decide (ex.index ≥ root.selfParent.index))
                  else rest
              | none => .ok false
            | some ey =>
              if ex.creator = ey.creator then .ok (decide (ex.index ≥ ey.index))
              else rest

/-- `ancestor` (caches dropped): empty hashes are never related;
otherwise defer to `ancestorGo`. -/
def ancestor (lf n : Nat) (ps : Peers) (st : Store) (x y : String) : Except PErr Bool :=
  if x = "" ∨ y = "" then .ok false else ancestorGo lf n ps st x y

/-- `see(x, y)` is an alias of `ancestor` (fork detection is left to
InsertEvent). -/
def see (lf n : Nat) (ps : Peers) (st : Store) (x y : String) : Except PErr Bool :=
  ancestor lf n ps st x y

/-- `selfAncestor2` with the `selfAncestor` guard inlined (caches
dropped): no recursion — equality, root stubs and same-creator index
comparison decide everything. -/
def selfAncestor (ps : Peers) (st : Store) (x y : String) : Except PErr Bool :=
  if x = "" ∨ y = "" then .ok false
  else if x = y then .ok true
  else
    match getEvent st x with
    | none =>
      match (rootsBySelfParent st).lookup x with
      | some root => .ok (root.selfParent.hash = y)
      | none => .ok false
    | some ex =>
      match getEvent st y with
      | none =>
        match (rootsBySelfParent st).lookup y with
        | some root =>
          match byId ps root.selfParent.creatorID with
          | none => .error .nilPeer
          | some peer =>
            if ex.creator = peer.pubKeyHex then
              .ok (decide (ex.index ≥ root.selfParent.index))
            else .ok false
        | none => .ok false
      | some ey =>
        if ex.creator = ey.creator then .ok (decide (ex.index ≥ ey.index))
        else .ok false

/-- Insertion into the Go `map[string]bool` of sentinels: idempotent. -/
def insertSentinel (k : String) (s : List String) : List String :=
  if k ∈ s then s else k :: s

/-- `MapSentinels(x, y, sentinels)`: walk x's ancestry accumulating
the creator public keys of every event that sees y; events missing
from the store contribute their root's creator.  `lf` and `af` are
the fuels handed to Lamport-timestamp and ancestor calls; the third
argument bounds this walk. -/
def mapSentinels (lf af : Nat) :
    Nat → Peers → Store → String → String → List String → Except PErr (List String)
  | 0, _, _, _, _, _ => .error .fuelExhausted
  | n + 1, ps, st, x, y, sentinels =>
    if x = "" then .ok sentinels
    else
      match see lf af ps st x y with
      | .error e => .error e
      | .ok false => .ok sentinels
      | .ok true =>
        match getEvent st x with
        | none =>
          match (rootsBySelfParent st).lookup x with
          | some root =>
            match byId ps root.selfParent.creatorID with
            | none => .error .nilPeer
            | some creator => .ok (insertSentinel creator.pubKeyHex sentinels)
          | none => .error .keyNotFound
        | some ex =>
          let sentinels := insertSentinel ex.creator sentinels
          if x = y then .ok sentinels
          else
            match mapSentinels lf af n ps st (otherParent ex) y sentinels with
            | .error e => .error e
            | .ok s2 => mapSentinels lf af n ps st (selfParent ex) y s2

/-- `stronglySee2(x, y)`: x strongly sees y iff the sentinel set
reaches the supermajority threshold. -/
def stronglySee2 (lf af n : Nat) (sm : Nat) (ps : Peers) (st : Store) (x y : String) :
    Except PErr Bool :=
  match mapSentinels lf af n ps st x y [] with
  | .error e => .error e
  | .ok s => .ok (decide (s.length ≥ sm))

/-- `stronglySee` (caches dropped): empty hashes are never related;
otherwise defer to `stronglySee2`. -/
def stronglySee (lf af n : Nat) (sm : Nat) (ps : Peers) (st : Store) (x y : String) :
    Except PErr Bool :=
  if x = "" ∨ y = "" then .ok false else stronglySee2 lf af n sm ps st x y

/-- The memoisation caches owned by the consensus engine: ancestor,
self-ancestor, strongly-see, round and timestamp.  The LRU bound is
dropped (eviction does not affect correctness); entries are
association-list pairs keyed the same way as the Go `Key{x, y}` /
hash keys. -/
structure Caches where
  ancestorC : List ((String × String) × Bool)
  selfAncestorC : List ((String × String) × Bool)
  stronglySeeC : List ((String × String) × Bool)
  roundC : List (String × Int)
  timestampC : List (String × Int)
  deriving DecidableEq, Repr

/-- Fresh caches, as created by `NewPoset`. -/
def newCaches : Caches :=
  { ancestorC := [], selfAncestorC := [], stronglySeeC := [], roundC := [],
    timestampC := [] }

/-- The cached `lamportTimestamp`: consult the timestamp cache first;
on a miss run `lamportTimestamp2`, whose recursive calls also go
through the cache, and record the result.  Returns the result paired
with the updated cache state. -/
def lamportTimestampC : Nat → Store → Caches → String → Except PErr Int × Caches
  | 0, _, c, _ => (.error .fuelExhausted, c)
  | n + 1, st, c, x =>
    match c.timestampC.lookup x with
    | some v => (.ok v, c)
    | none =>
      match (rootsBySelfParent st).lookup x with
      | some r =>
        (.ok r.selfParent.lamportTimestamp,
          { c with timestampC := (x, r.selfParent.lamportTimestamp) :: c.timestampC })
      | none =>
        match getEvent st x with
        | none => (.error .keyNotFound, c)
        | some ex =>
          match getRoot st ex.creator with
          | none => (.error .keyNotFound, c)
          | some root =>
            match
              (if selfParent ex = root.selfParent.hash then
                (Except.ok root.selfParent.lamportTimestamp, c)
              else lamportTimestampC n st c (selfParent ex)) with
            | (.error e, c1) => (.error e, c1)
            | (.ok plt, c1) =>
              if otherParent ex ≠ "" then
                match
                  (match getEvent st (otherParent ex) with
                  | some _ => lamportTimestampC n st c1 (otherParent ex)
                  | none =>
                    match root.others.lookup x with
                    | some other =>
                      if other.hash = otherParent ex then
                        (Except.ok other.lamportTimestamp, c1)
                      else (Except.ok minInt64, c1)
                    | none => (Except.ok minInt64, c1)) with
                | (.error e, c2) => (.error e, c2)
                | (.ok opLT, c2) =>
                  let v := (if opLT > plt then opLT else plt) + 1
                  (.ok v, { c2 with timestampC := (x, v) :: c2.timestampC })
              else
                (.ok (plt + 1), { c1 with timestampC := (x, plt + 1) :: c1.timestampC })

/-- A pending-rounds queue entry. -/
structure PendingRound where
  index : Int
  decided : Bool
  deriving DecidableEq, Repr

/-- The engine state of `Poset`: participants with the thresholds
derived from their count, the store, the engine-private queues and
counters, the caches, and the blocks pushed on the commit channel. -/
structure PosetState where
  participants : Peers
  superMajority : Nat
  trustCount : Nat
  store : Store
  undeterminedEvents : List String
  pendingRounds : List PendingRound
  lastConsensusRound : Option Int
  firstConsensusRound : Option Int
  anchorBlock : Option Int
  sigPool : List BlockSignature
  consensusTransactions : Nat
  pendingLoadedEvents : Int
  topologicalIndex : Int
  caches : Caches
  commits : List Block
  deriving DecidableEq, Repr

/-- `setLastConsensusRound(i)`: also records the first consensus round
when not yet set. -/
def setLastConsensusRoundFn (p : PosetState) (i : Int) : PosetState :=
  let p := { p with lastConsensusRound := some i }
  if p.firstConsensusRound = none then { p with firstConsensusRound := some i }
  else p

/-- `checkSelfParent`: the event's self-parent must be its creator's
last known event. -/
def checkSelfParent (st : Store) (event : Event) : Except PErr Unit :=
  match lastEventFrom st event.creator with
  | .error e => .error e
  | .ok (creatorLastKnown, _) =>
    if selfParent event = creatorLastKnown then .ok ()
    else .error .selfParentNotLast

/-- `checkOtherParent`: a non-empty other-parent must be a known event
or be recorded for this event in the creator's root. -/
def checkOtherParent (st : Store) (event : Event) : Except PErr Unit :=
  let op := otherParent event
  if op ≠ "" then
    match getEvent st op with
    | some _ => .ok ()
    | none =>
      match getRoot st event.creator with
      | none => .error .keyNotFound
      | some root =>
        match root.others.lookup event.hex with
        | some other => if other.hash = op then .ok () else .error .otherParentUnknown
        | none => .error .otherParentUnknown
  else .ok ()

/-- `setWireInfo`: fill in the integer parent shortcuts, consulting
the creator's root for a first event and for pre-frame other-parents.
A creator missing from the participants registry is the Go nil-pointer
dereference, modelled as an error. -/
def setWireInfoFn (ps : Peers) (st : Store) (event : Event) : Except PErr Event := do
  let spIdx ←
    (match lastEventFrom st event.creator with
    | .ok (lf, true) =>
      if lf = selfParent event then
        match getRoot st event.creator with
        | none => .error .keyNotFound
        | some root => .ok root.selfParent.index
      else
        match getEvent st (selfParent event) with
        | none => .error .keyNotFound
        | some sp => .ok sp.index
    | _ =>
      match getEvent st (selfParent event) with
      | none => .error .keyNotFound
      | some sp => .ok sp.index : Except PErr Int)
  let opInfo ←
    (if otherParent event ≠ "" then
      match getRoot st event.creator with
      | none => .error .keyNotFound
      | some root =>
        match root.others.lookup event.hex with
        | some other =>
          if other.hash = otherParent event then .ok (other.creatorID, other.index)
          else
            match getEvent st (otherParent event) with
            | none => .error .keyNotFound
            | some op =>
              match byPubKey ps op.creator with
              | none => .error .nilPeer
              | some peer => .ok (peer.id, op.index)
        | none =>
          match getEvent st (otherParent event) with
          | none => .error .keyNotFound
          | some op =>
            match byPubKey ps op.creator with
            | none => .error .nilPeer
            | some peer => .ok (peer.id, op.index)
    else .ok (-1, -1) : Except PErr (Int × Int))
  match byPubKey ps event.creator with
  | none => .error .nilPeer
  | some creator =>
    .ok { event with
      selfParentIndex := spIdx
      otherParentCreatorID := opInfo.1
      otherParentIndex := opInfo.2
      creatorID := creator.id }

/-- `InsertEvent(event, setWireInfo)`: verify the signature (the ECDSA
check is the `verify` oracle), check both parents, stamp and bump the
topological index, optionally fill wire info, persist the event,
queue it as undetermined, count it when loaded, and pool its block
signatures.  Mutation style: the returned state carries whatever was
mutated before an error, exactly as the Go method leaves `p`. -/
def insertEvent (verify : Event → Bool) (p : PosetState) (event : Event)
    (setWire : Bool) : PosetState × Option PErr :=
  if !verify event then (p, some .invalidSignature)
  else
    match checkSelfParent p.store event with
    | .error e => (p, some e)
    | .ok _ =>
      match checkOtherParent p.store event with
      | .error e => (p, some e)
      | .ok _ =>
        let event := { event with topologicalIndex := p.topologicalIndex }
        let p := { p with topologicalIndex := p.topologicalIndex + 1 }
        match (if setWire then setWireInfoFn p.participants p.store event
               else .ok event : Except PErr Event) with
        | .error e => (p, some e)
        | .ok event =>
          let p := { p with
            store := setEvent p.store event
            undeterminedEvents := p.undeterminedEvents ++ [event.hex] }
          let p :=
            if eventIsLoaded event then
              { p with pendingLoadedEvents := p.pendingLoadedEvents + 1 }
            else p
          ({ p with sigPool := p.sigPool ++ event.blockSignatures }, none)

/-- Insert a list of events in order, stopping at the first failure,
as the reinsertion loop at the end of `Reset` does. -/
def insertEvents (verify : Event → Bool) :
    PosetState → List Event → PosetState × Option PErr
  | p, [] => (p, none)
  | p, e :: rest =>
    match insertEvent verify p e false with
    | (p', none) => insertEvents verify p' rest
    | (p', some err) => (p', some err)

/-- Modelled from the spec: `Store.Reset(rootMap)` — replace the
event, participant, root and round indices with a fresh base derived
from the given roots (persisted blocks survive). -/
def resetStore (st : Store) (rootMap : List (String × Root)) : Store :=
  { events := []
    participantEvents := rootMap.map (fun pr => (pr.1, []))
    roots := rootMap
    rounds := []
    blocks := st.blocks
    consensusEvents := [] }

/-- `Poset.Reset(block, frame)`: clear the consensus cursors, queues
and counters; re-create the ancestor, self-ancestor, strongly-see and
round caches (the timestamp cache is left untouched, as in the
source); reset the store onto the frame's roots keyed by participant;
persist the block; set the last consensus round to the block's
round-received; reinsert the frame's events without wire info. -/
def posetReset (verify : Event → Bool) (p : PosetState) (block : Block)
    (frame : Frame) : PosetState × Option PErr :=
  let p := { p with
    lastConsensusRound := none
    firstConsensusRound := none
    anchorBlock := none
    undeterminedEvents := []
    pendingRounds := []
    pendingLoadedEvents := 0
    topologicalIndex := 0
    caches := { ancestorC := [], selfAncestorC := [], stronglySeeC := [],
                roundC := [], timestampC := p.caches.timestampC } }
  let rootMap := (p.participants.zip frame.roots).map
    (fun pr => (pr.1.pubKeyHex, pr.2))
  let p := { p with store := resetStore p.store rootMap }
  let p := { p with store := setBlock p.store block }
  let p := setLastConsensusRoundFn p block.roundReceived
  insertEvents verify p frame.events

/-- `removeProcessedSignatures(processedSignatures)`: keep only the
pool entries whose `Index` field is not a key of the processed map
(the map is keyed by pool position, so this comparison mixes the two,
exactly as the source does). -/
def removeProcessedSignatures (p : PosetState) (processed : List Int) : PosetState :=
  { p with sigPool := p.sigPool.filter (fun bs => !processed.contains bs.index) }

/-- The loop of `ProcessSigPool` over the pool with its position
counter, accumulating the processed positions: skip (without marking)
unknown validators, unknown blocks and invalid signatures; verify and
attach otherwise (`blockVerify` is the signature-check oracle; a
verification error aborts the loop); promote the anchor block past
the trust count.  Entries at or below the anchor block are marked
without further checks. -/
def sigPoolGo (blockVerify : Block → BlockSignature → Except PErr Bool) :
    PosetState → List BlockSignature → Int → List Int →
      PosetState × List Int × Option PErr
  | p, [], _, processed => (p, processed, none)
  | p, bs :: rest, i, processed =>
    if (byPubKey p.participants bs.validatorHex).isNone then
      sigPoolGo blockVerify p rest (i + 1) processed
    else if (match p.anchorBlock with
             | none => true
             | some a => decide (bs.index > a)) then
      match getBlock p.store bs.index with
      | none => sigPoolGo blockVerify p rest (i + 1) processed
      | some block =>
        match blockVerify block bs with
        | .error e => (p, processed, some e)
        | .ok false => sigPoolGo blockVerify p rest (i + 1) processed
        | .ok true =>
          let block := block.setSignature bs
          let p := { p with store := setBlock p.store block }
          let p :=
            if decide (block.signatures.length > p.trustCount) &&
                (match p.anchorBlock with
                 | none => true
                 | some a => decide (block.index > a)) then
              { p with anchorBlock := some block.index }
            else p
          sigPoolGo blockVerify p rest (i + 1) (processed ++ [i])
    else sigPoolGo blockVerify p rest (i + 1) (processed ++ [i])

/-- `ProcessSigPool`: run the pool loop from position 0 and then sweep
the pool with `removeProcessedSignatures` (the Go defer runs on both
the normal and the error return). -/
def processSigPool (blockVerify : Block → BlockSignature → Except PErr Bool)
    (p : PosetState) : PosetState × Option PErr :=
  match sigPoolGo blockVerify p p.sigPool 0 [] with
  | (p', processed, err) => (removeProcessedSignatures p' processed, err)

/-- Modelled from the spec: `NewBlockFromFrame` — a block carrying the
frame's round as round-received and the frame events' transactions in
order; the frame digest is not modelled. -/
def newBlockFromFrame (ix : Int) (f : Frame) : Block :=
  { index := ix
    roundReceived := f.round
    frameHash := ""
    transactions := f.events.foldl (fun acc e => acc ++ e.transactions) []
    signatures := [] }

/-- The inner loop of `ProcessDecidedRounds` over the frame's events:
mark each one a consensus event in the store, count its transactions,
and decrement the loaded-events counter when it is loaded. -/
def commitFrameEvents (p : PosetState) (evs : List Event) : PosetState :=
  evs.foldl (fun q ev =>
    let q := { q with
      store := addConsensusEvent q.store ev
      consensusTransactions := q.consensusTransactions + ev.transactions.length }
    if eventIsLoaded ev then
      { q with pendingLoadedEvents := q.pendingLoadedEvents - 1 }
    else q) p

/-- The per-round commit step of `ProcessDecidedRounds`: when the
frame has events, commit them, build the next block, and when the
block carries transactions persist it and push it on the commit
channel. -/
def commitFrame (p : PosetState) (frame : Frame) : PosetState :=
  if !frame.events.isEmpty then
    let p := commitFrameEvents p frame.events
    let block := newBlockFromFrame (lastBlockIndex p.store + 1) frame
    if !block.transactions.isEmpty then
      { p with store := setBlock p.store block, commits := p.commits ++ [block] }
    else p
  else p

/-- The loop of `ProcessDecidedRounds` with its processed counter:
stop at the first undecided pending round; skip the round equal to
the last consensus round (without counting it as processed); fetch
the frame (`frameFn` stands for `GetFrame`) and the round, commit the
frame's events and possibly a block, and advance the last consensus
round when the processed index is beyond it. -/
def processDecidedRoundsGo (frameFn : Int → Except PErr Frame) :
    PosetState → List PendingRound → Nat → PosetState × Nat × Option PErr
  | p, [], k => (p, k, none)
  | p, r :: rest, k =>
    if !r.decided then (p, k, none)
    else if p.lastConsensusRound = some r.index then
      processDecidedRoundsGo frameFn p rest k
    else
      match frameFn r.index with
      | .error e => (p, k, some e)
      | .ok frame =>
        match getRound p.store r.index with
        | none => (p, k, some .keyNotFound)
        | some _ =>
          let p := commitFrame p frame
          let k := k + 1
          let p :=
            if (match p.lastConsensusRound with
                | none => true
                | some v => decide (r.index > v)) then
              setLastConsensusRoundFn p r.index
            else p
          processDecidedRoundsGo frameFn p rest k

/-- `ProcessDecidedRounds`: run the loop and then (as the Go defer
does on every exit) drop the processed prefix of the pending-rounds
queue. -/
def processDecidedRounds (frameFn : Int → Except PErr Frame) (p : PosetState) :
    PosetState × Option PErr :=
  match processDecidedRoundsGo frameFn p p.pendingRounds 0 with
  | (p', k, err) => ({ p' with pendingRounds := p'.pendingRounds.drop k }, err)

/-- The ascending round indices `a, a+1, ..., b` scanned by the Go
loops `for i := a; i <= b; i++`. -/
def intRange (a b : Int) : List Int :=
  (List.range (b + 1 - a).toNat).map (fun k : Nat => a + (k : Int))

/-- The qualification test of `DecideRoundReceived` at one round: all
famous witnesses of the round see x and there is at least one. -/
def drrQualB (seeFn : String → String → Bool) (x : String) (tr : RoundInfo) : Bool :=
  let fws := tr.famousWitnesses
  let s := fws.filter (fun w => seeFn w x)
  s.length == fws.length && s.length > 0

/-- The round scan of `DecideRoundReceived` for one undetermined event
x (`seeFn` stands for `see`): walk the given ascending rounds; a
missing round stops the scan as received-after-reset when the event's
round is before the last consensus round and is an error otherwise;
a round with undecided witnesses stops the scan; the first qualifying
round assigns round-received, records x as one of its consensus
events, and stops.  Returns the store, the received flag and the
assigned round. -/
def drrLoop (seeFn : String → String → Bool) (st : Store) (lcrSkip : Bool)
    (x : String) : List Int → Except PErr (Store × Bool × Option Int)
  | [] => .ok (st, false, none)
  | i :: rest =>
    match getRound st i with
    | none => if lcrSkip then .ok (st, true, none) else .error .keyNotFound
    | some tr =>
      if !tr.witnessesDecided then .ok (st, false, none)
      else if drrQualB seeFn x tr then
        match getEvent st x with
        | none => .error .keyNotFound
        | some ex =>
          .ok (setRound (setEvent st { ex with roundReceived := some i }) i
                 (tr.setConsensusEvent x),
               true, some i)
      else drrLoop seeFn st lcrSkip x rest

/-- One undetermined event of `DecideRoundReceived` (`roundFn` stands
for `round`): scan the rounds from round(x)+1 up to the store's last
round. -/
def decideRoundReceivedOne (seeFn : String → String → Bool)
    (roundFn : String → Int) (p : PosetState) (x : String) :
    Except PErr (PosetState × Bool × Option Int) :=
  let r := roundFn x
  let lcrSkip :=
    match p.lastConsensusRound with
    | some v => decide (r < v)
    | none => false
  match drrLoop seeFn p.store lcrSkip x (intRange (r + 1) (lastRound p.store)) with
  | .error e => .error e
  | .ok (st, received, assigned) => .ok ({ p with store := st }, received, assigned)

/-- The fold of `DecideRoundReceived` over the undetermined queue,
keeping the events that were not received. -/
def drrAll (seeFn : String → String → Bool) (roundFn : String → Int) :
    PosetState → List String → List String → Except PErr PosetState
  | p, [], acc => .ok { p with undeterminedEvents := acc }
  | p, x :: rest, acc =>
    match decideRoundReceivedOne seeFn roundFn p x with
    | .error e => .error e
    | .ok (p', received, _) =>
      drrAll seeFn roundFn p' rest (if received then acc else acc ++ [x])

/-- `DecideRoundReceived`: process every undetermined event and
replace the queue with the events still undetermined. -/
def decideRoundReceived (seeFn : String → String → Bool)
    (roundFn : String → Int) (p : PosetState) : Except PErr PosetState :=
  drrAll seeFn roundFn p p.undeterminedEvents []

/-- The vote table of `DecideFame`: `votes[y][x]`, modelled as an
association list where the latest entry wins, with Go's missing-key
default of false. -/
abbrev Votes := List ((String × String) × Bool)

/-- Record `vote(y, x) = v`. -/
def setVote (votes : Votes) (y x : String) (v : Bool) : Votes :=
  ((y, x), v) :: votes

/-- Read `votes[y][x]`, false when absent. -/
def voteOf (votes : Votes) (y x : String) : Bool :=
  (votes.lookup (y, x)).getD false

/-- The witnesses of the previous round that y strongly sees
(`ssFn` stands for `stronglySee`). -/
def ssWitnessesOf (ssFn : String → String → Bool) (prevW : List String)
    (y : String) : List String :=
  prevW.filter (fun w => ssFn y w)

/-- The majority vote and its tally as computed in `DecideFame`:
`v := yays >= nays`, `t := max(yays, nays)`. -/
def fameVT (votes : Votes) (ssW : List String) (x : String) : Bool × Nat :=
  let yays := (ssW.filter (fun w => voteOf votes w x)).length
  let nays := (ssW.filter (fun w => !voteOf votes w x)).length
  if yays ≥ nays then (true, yays) else (false, nays)

/-- The per-voter body of `DecideFame` for witness y voting on x at
round difference `diff`: at difference 1 the vote is `see(y, x)`;
otherwise tally the strongly-seen previous-round witnesses; in a
normal round (`diff mod n > 0`) a supermajority tally decides x's
fame and stops the voting (break flag), else the majority vote is
recorded; in a coin round a supermajority tally records the majority
vote while a smaller tally records the middle bit of y's hash. -/
def decideFameVote (n sm : Nat) (seeFn : String → String → Bool)
    (ssFn : String → String → Bool) (prevW : List String) (votes : Votes)
    (ri : RoundInfo) (x y : String) (diff : Int) : Votes × RoundInfo × Bool :=
  if diff = 1 then (setVote votes y x (seeFn y x), ri, false)
  else
    let ssW := ssWitnessesOf ssFn prevW y
    let vt := fameVT votes ssW x
    if diff % (n : Int) > 0 then
      if vt.2 ≥ sm then (setVote votes y x vt.1, ri.setFame x vt.1, true)
      else (setVote votes y x vt.1, ri, false)
    else
      if vt.2 ≥ sm then (setVote votes y x vt.1, ri, false)
      else (setVote votes y x (middleBit y), ri, false)

/-- Round i is decided and qualifying for event x: all its famous
witnesses see x and there is at least one. -/
def drrQualRound (seeFn : String → String → Bool) (x : String) (st : Store)
    (i : Int) : Prop :=
  ∃ tr, getRound st i = some tr ∧ tr.witnessesDecided = true ∧
    drrQualB seeFn x tr = true

/-- Round i is decided but not qualifying for event x. -/
def drrSkipRound (seeFn : String → String → Bool) (x : String) (st : Store)
    (i : Int) : Prop :=
  ∃ tr, getRound st i = some tr ∧ tr.witnessesDecided = true ∧
    drrQualB seeFn x tr = false

/-- Concrete fixtures used by the witness and counterexample theorems. -/
def peerA : Peer := { pubKeyHex := "0xA1", netAddr := "", id := 1 }

/-- A base root for `peerA`, as `NewBaseRoot` would produce with the
hash abbreviated. -/
def rootA : Root :=
  { nextRound := 0
    selfParent := { hash := "RA", creatorID := 1, index := -1,
                    lamportTimestamp := -1, round := -1 }
    others := [] }

/-- A store holding just `peerA`'s root. -/
def baseStore : Store :=
  { events := [], participantEvents := [("0xA1", [])],
    roots := [("0xA1", rootA)], rounds := [], blocks := [],
    consensusEvents := [] }

/-- A freshly initialised single-participant poset. -/
def basePoset : PosetState :=
  { participants := [peerA]
    superMajority := superMajorityOf 1
    trustCount := trustCountOf 1
    store := baseStore
    undeterminedEvents := []
    pendingRounds := []
    lastConsensusRound := none
    firstConsensusRound := none
    anchorBlock := none
    sigPool := []
    consensusTransactions := 0
    pendingLoadedEvents := 0
    topologicalIndex := 0
    caches := newCaches
    commits := [] }

/-- An event with every field blank, to build fixtures from. -/
def blankEvent : Event :=
  { transactions := [], internalTransactions := [], parents := [],
    creator := "", index := 0, blockSignatures := [], signature := "",
    flagTable := [], witnessProof := [], selfParentIndex := -1,
    otherParentCreatorID := -1, otherParentIndex := -1, creatorID := -1,
    topologicalIndex := 0, hex := "", round := none,
    lamportTimestamp := none, roundReceived := none }

/-- The first event of `peerA` on its root, for Lamport-timestamp
witnesses. -/
def eventX : Event :=
  { blankEvent with parents := ["RA", ""], creator := "0xA1", index := 0,
                    hex := "X" }

/-- A store holding `peerA`'s root and `eventX`. -/
def storeX : Store :=
  { baseStore with events := [("X", eventX)], participantEvents := [("0xA1", ["X"])] }

/-- A multi-parent-vintage event with index 1, a non-nil empty payload
slice and one internal transaction. -/
def eventNoPayload : PosetM.Event :=
  { body := { transactions := some []
              internalTransactions := [{ txType := 0, peer := "" }]
              parents := ["", ""], creator := [], index := 1
              blockSignatures := [] }
    signature := "" }

/-- A block at index 5 without signatures. -/
def block5 : Block :=
  { index := 5, roundReceived := 1, frameHash := "", transactions := [],
    signatures := [] }

/-- A signature by `peerA` on block 5, sitting at pool position 0. -/
def bsA : BlockSignature := { validatorHex := "0xA1", index := 5, signature := "s" }

/-- A signature by an unknown validator on block 0. -/
def bsU : BlockSignature := { validatorHex := "0xBB", index := 0, signature := "u" }

/-- A poset whose store knows block 5 and whose pool holds `bsA`. -/
def sigPoolPoset : PosetState :=
  { basePoset with
    store := { baseStore with blocks := [(5, block5)] }
    sigPool := [bsA] }

/-- A poset whose pool holds only the unknown-validator signature. -/
def sigPoolPosetU : PosetState := { basePoset with sigPool := [bsU] }

/-- A frame carrying `peerA`'s root and no events, for Reset
scenarios. -/
def resetFrame : Frame := { round := 0, roots := [rootA], events := [] }

/-- A block at index 0 with round-received 0, for Reset scenarios. -/
def resetBlock : Block :=
  { index := 0, roundReceived := 0, frameHash := "", transactions := [],
    signatures := [] }

/-- A poset whose timestamp cache holds a stale entry for the root
hash `RA`. -/
def poisonedPoset : PosetState :=
  { basePoset with caches := { newCaches with timestampC := [("RA", 42)] } }

/-- A round with a single already-famous witness `W`. -/
def roundW : RoundInfo :=
  { events := [("W", { witness := true, famous := Famous.yes })],
    consensusEvents := [], queued := false }

/-- A poset holding `eventX` as undetermined and `roundW` decided at
round 1, for the round-received witness. -/
def drrPoset : PosetState :=
  { basePoset with
    store := { storeX with rounds := [(1, roundW)] }
    undeterminedEvents := ["X"] }

/-- A pending round entry for round 1, decided. -/
def pr1 : PendingRound := { index := 1, decided := true }

/-- A poset with last consensus round 0, pending decided round 1 and
round 1 present in the store. -/
def pdrPoset : PosetState :=
  { basePoset with
    store := { baseStore with rounds := [(1, roundW)] }
    pendingRounds := [pr1]
    lastConsensusRound := some 0
    firstConsensusRound := some 0 }

end Lachesis

namespace Lachesis

/-- Claim C8 (counterexample): an event with index 1, a non-nil empty
payload-transaction slice and one internal transaction is reported
loaded although its index is not 0 and it carries no transaction. -/
theorem isLoaded_payload_counterexample :
    PosetM.isLoaded eventNoPayload = true ∧
    ¬ (eventNoPayload.body.index = 0 ∨
        0 < (eventNoPayload.body.transactions.getD []).length) := by
  decide

/-- Claim C8 (amended): `IsLoaded(e)` is true iff e's index is 0, or
the payload-transaction slice is non-nil and at least one payload or
internal transaction is present. -/
theorem isLoaded_characterization (e : PosetM.Event) :
    PosetM.isLoaded e = true ↔
      (e.body.index = 0 ∨
        (e.body.transactions ≠ none ∧
          (0 < (e.body.transactions.getD []).length ∨
            0 < e.body.internalTransactions.length))) := by
  unfold PosetM.isLoaded
  by_cases h : e.body.index = 0
  · simp [h]
  · cases hts : e.body.transactions with
    | none => simp [h, hts]
    | some l =>
      simp [h, hts, List.isEmpty_iff, List.length_pos, Nat.pos_iff_ne_zero]

/-- Claim C9: each of ancestor, self-ancestor and strongly-see returns
false without error when either argument is the empty string. -/
theorem graph_predicates_empty_hash (lf n af m sm : Nat) (ps : Peers)
    (st : Store) (y : String) :
    ancestor lf n ps st "" y = .ok false ∧
    ancestor lf n ps st y "" = .ok false ∧
    selfAncestor ps st "" y = .ok false ∧
    selfAncestor ps st y "" = .ok false ∧
    stronglySee lf af m sm ps st "" y = .ok false ∧
    stronglySee lf af m sm ps st y "" = .ok false := by
  refine ⟨?_, ?_, ?_, ?_, ?_, ?_⟩ <;> simp [ancestor, selfAncestor, stronglySee]

/-- Claim C1: when the signature oracle rejects the event, InsertEvent
returns the validation error and leaves the whole state — store,
topological index, undetermined queue, loaded counter and signature
pool — unchanged. -/
theorem insertEvent_invalid_signature (verify : Event → Bool) (p : PosetState)
    (event : Event) (sw : Bool) (h : verify event = false) :
    insertEvent verify p event sw = (p, some PErr.invalidSignature) ∧
    (insertEvent verify p event sw).1.store = p.store ∧
    (insertEvent verify p event sw).1.topologicalIndex = p.topologicalIndex ∧
    (insertEvent verify p event sw).1.undeterminedEvents = p.undeterminedEvents ∧
    (insertEvent verify p event sw).1.pendingLoadedEvents = p.pendingLoadedEvents ∧
    (insertEvent verify p event sw).1.sigPool = p.sigPool := by
  have key : insertEvent verify p event sw = (p, some PErr.invalidSignature) := by
    simp [insertEvent, h]
  exact ⟨key, by rw [key], by rw [key], by rw [key], by rw [key], by rw [key]⟩

/-- Witness for C1: a concrete rejected insertion. -/
theorem insertEvent_invalid_signature_witness :
    (fun _ : Event => false) blankEvent = false ∧
    (insertEvent (fun _ => false) basePoset blankEvent true
        = (basePoset, some PErr.invalidSignature) ∧
      (insertEvent (fun _ => false) basePoset blankEvent true).1.store
        = basePoset.store ∧
      (insertEvent (fun _ => false) basePoset blankEvent true).1.topologicalIndex
        = basePoset.topologicalIndex ∧
      (insertEvent (fun _ => false) basePoset blankEvent true).1.undeterminedEvents
        = basePoset.undeterminedEvents ∧
      (insertEvent (fun _ => false) basePoset blankEvent true).1.pendingLoadedEvents
        = basePoset.pendingLoadedEvents ∧
      (insertEvent (fun _ => false) basePoset blankEvent true).1.sigPool
        = basePoset.sigPool) :=
  ⟨rfl, insertEvent_invalid_signature _ _ _ _ rfl⟩

/-- Claim C5: in a coin round (difference not 1 and divisible by the
participant count) whose tally is below the supermajority, the
recorded vote is the middle bit of y's hash; no fame is set and the
voting does not stop. -/
theorem decideFameVote_coin (n sm : Nat) (seeFn ssFn : String → String → Bool)
    (prevW : List String) (votes : Votes) (ri : RoundInfo) (x y : String)
    (diff : Int) (hn : 0 < n) (hd : diff ≠ 1) (hcoin : diff % (n : Int) = 0)
    (ht : (fameVT votes (ssWitnessesOf ssFn prevW y) x).2 < sm) :
    (decideFameVote n sm seeFn ssFn prevW votes ri x y diff).1
        = setVote votes y x (middleBit y) ∧
    voteOf (decideFameVote n sm seeFn ssFn prevW votes ri x y diff).1 y x
        = middleBit y ∧
    (decideFameVote n sm seeFn ssFn prevW votes ri x y diff).2.1 = ri ∧
    (decideFameVote n sm seeFn ssFn prevW votes ri x y diff).2.2 = false := by
  have hb : ¬ (diff % (n : Int) > 0) := by rw [hcoin]; simp
  have hnt : ¬ ((fameVT votes (ssWitnessesOf ssFn prevW y) x).2 ≥ sm) :=
    Nat.not_le.mpr ht
  refine ⟨?_, ?_, ?_, ?_⟩ <;>
    simp [decideFameVote, hd, hb, hnt, voteOf, setVote, List.lookup]

/-- Witness for C5: a concrete coin-round vote set to the middle bit. -/
theorem decideFameVote_coin_witness :
    (0 < 1 ∧ (2 : Int) ≠ 1 ∧ (2 : Int) % ((1 : Nat) : Int) = 0 ∧
      (fameVT [] (ssWitnessesOf (fun _ _ => true) [] "0xAB") "X").2 < 1) ∧
    ((decideFameVote 1 1 (fun _ _ => true) (fun _ _ => true) [] [] roundW
        "X" "0xAB" 2).1 = setVote [] "0xAB" "X" (middleBit "0xAB") ∧
      voteOf (decideFameVote 1 1 (fun _ _ => true) (fun _ _ => true) [] []
        roundW "X" "0xAB" 2).1 "0xAB" "X" = middleBit "0xAB" ∧
      (decideFameVote 1 1 (fun _ _ => true) (fun _ _ => true) [] [] roundW
        "X" "0xAB" 2).2.1 = roundW ∧
      (decideFameVote 1 1 (fun _ _ => true) (fun _ _ => true) [] [] roundW
        "X" "0xAB" 2).2.2 = false) :=
  ⟨⟨by decide, by decide, by decide, by decide⟩,
    decideFameVote_coin 1 1 (fun _ _ => true) (fun _ _ => true) [] [] roundW
      "X" "0xAB" 2 (by decide) (by decide) (by decide) (by decide)⟩

/-- Claim C7 (code bug): a valid signature for a known block is
attached to the block yet remains in the pool after ProcessSigPool,
because the sweep compares block indices against pool positions; an
unknown-validator signature also remains. -/
theorem processSigPool_retains_signatures :
    (processSigPool (fun _ _ => .ok true) sigPoolPoset).2 = none ∧
    (processSigPool (fun _ _ => .ok true) sigPoolPoset).1.sigPool = [bsA] ∧
    getBlock (processSigPool (fun _ _ => .ok true) sigPoolPoset).1.store 5
      = some { block5 with signatures := [bsA] } ∧
    (processSigPool (fun _ _ => .ok true) sigPoolPosetU).2 = none ∧
    (processSigPool (fun _ _ => .ok true) sigPoolPosetU).1.sigPool = [bsU] :=
  ⟨rfl, rfl, rfl, rfl, rfl⟩

/-- Claim C6 (counterexample): after a Reset, the timestamp cache
still holds its pre-Reset entry, so the cached Lamport timestamp of
the root hash returns the stale 42 while a clean cache (and the pure
function) return the root's recorded -1. -/
theorem reset_stale_timestamp_counterexample :
    (posetReset (fun _ => true) poisonedPoset resetBlock resetFrame).2
      = none ∧
    (lamportTimestampC 3
        (posetReset (fun _ => true) poisonedPoset resetBlock resetFrame).1.store
        (posetReset (fun _ => true) poisonedPoset resetBlock resetFrame).1.caches
        "RA").1 = Except.ok 42 ∧
    (lamportTimestampC 3
        (posetReset (fun _ => true) poisonedPoset resetBlock resetFrame).1.store
        newCaches "RA").1 = Except.ok (-1) ∧
    lamportTimestamp 3
        (posetReset (fun _ => true) poisonedPoset resetBlock resetFrame).1.store
        "RA" = Except.ok (-1) :=
  ⟨rfl, rfl, rfl, rfl⟩

end Lachesis

namespace Lachesis

/-- Claim C2: for an event x that is not a root stub, the Lamport
timestamp is 1 plus the max of the self-parent's timestamp and the
other-parent's (the latter falling back to the root's recorded value
when the other-parent is pre-frame, and absent when there is no
other-parent), and is therefore strictly greater than both parents'
timestamps.  `opv` packages the other-parent case: `none` when x has
no other-parent, `some oLT` with the corresponding side condition
otherwise. -/
theorem lamportTimestamp_parent_formula (n : Nat) (st : Store) (x : String)
    (ex : Event) (root : Root) (spLT : Int) (opv : Option Int)
    (hroot : (rootsBySelfParent st).lookup x = none)
    (hev : getEvent st x = some ex)
    (hgr : getRoot st ex.creator = some root)
    (hsp : lamportTimestamp n st (selfParent ex) = Except.ok spLT)
    (hspc : selfParent ex = root.selfParent.hash →
      root.selfParent.lamportTimestamp = spLT)
    (hop : match opv with
      | none => otherParent ex = ""
      | some oLT => otherParent ex ≠ "" ∧
          ((∃ e, getEvent st (otherParent ex) = some e ∧
              lamportTimestamp n st (otherParent ex) = Except.ok oLT) ∨
           (getEvent st (otherParent ex) = none ∧
             ∃ o, root.others.lookup x = some o ∧ o.hash = otherParent ex ∧
               o.lamportTimestamp = oLT))) :
    lamportTimestamp (n + 1) st x = Except.ok (1 + max spLT (opv.getD spLT)) ∧
    spLT < 1 + max spLT (opv.getD spLT) ∧
    (∀ oLT, opv = some oLT → oLT < 1 + max spLT (opv.getD spLT)) := by
  have hplt : (if selfParent ex = root.selfParent.hash then
      Except.ok root.selfParent.lamportTimestamp
    else lamportTimestamp n st (selfParent ex)) = Except.ok spLT := by
    by_cases hc : selfParent ex = root.selfParent.hash
    · rw [if_pos hc, hspc hc]
    · rw [if_neg hc]; exact hsp
  refine ⟨?_, ?_, ?_⟩
  · cases opv with
    | none =>
      have hne : ¬ (otherParent ex ≠ "") := fun hcon => hcon hop
      simp only [lamportTimestamp, hroot, hev, hgr, hplt]
      rw [if_neg hne]
      simp [Int.add_comm]
    | some oLT =>
      obtain ⟨hne, hcase⟩ := hop
      simp only [lamportTimestamp, hroot, hev, hgr, hplt]
      rw [if_pos hne]
      have harith : (if oLT > spLT then oLT else spLT) + 1 = 1 + max spLT oLT := by
        rcases le_or_lt oLT spLT with hle | hlt
        · rw [if_neg (not_lt.mpr hle), max_eq_left hle]; ring
        · rw [if_pos hlt, max_eq_right hlt.le]; ring
      rcases hcase with ⟨e, hee, hltop⟩ | ⟨hnone, o, ho, hoh, holt⟩
      · simp only [hee, hltop, harith, Option.getD_some]
      · simp only [hnone, ho]
        rw [if_pos hoh, holt]
        simp only [harith, Option.getD_some]
  · have h1 := le_max_left spLT (opv.getD spLT); omega
  · intro oLT hv
    subst hv
    have h2 := le_max_right spLT ((some oLT).getD spLT)
    simp only [Option.getD_some] at h2 ⊢
    omega

/-- Witness for C2: the first event of a participant on its root has
timestamp 0 = 1 + max(-1, -1), strictly above its self-parent's -1. -/
theorem lamportTimestamp_parent_formula_witness :
    ((rootsBySelfParent storeX).lookup "X" = none ∧
      getEvent storeX "X" = some eventX ∧
      getRoot storeX eventX.creator = some rootA ∧
      lamportTimestamp 1 storeX (selfParent eventX) = Except.ok (-1) ∧
      otherParent eventX = "") ∧
    (lamportTimestamp 2 storeX "X"
        = Except.ok (1 + max (-1) ((none : Option Int).getD (-1))) ∧
      (-1 : Int) < 1 + max (-1) ((none : Option Int).getD (-1)) ∧
      (∀ oLT, (none : Option Int) = some oLT →
        oLT < 1 + max (-1) ((none : Option Int).getD (-1)))) :=
  ⟨⟨rfl, rfl, rfl, rfl, rfl⟩,
    lamportTimestamp_parent_formula 1 storeX "X" eventX rootA (-1) none
      rfl rfl rfl rfl (fun _ => rfl) rfl⟩

end Lachesis

namespace Lachesis

/-- Claim C3: stronglySee(x, y) succeeds with true exactly when the
sentinel set accumulated by MapSentinels from an empty set reaches the
supermajority threshold 2n/3 + 1 derived from the participant count. -/
theorem stronglySee_supermajority (lf af n sm : Nat) (ps : Peers) (st : Store)
    (x y : String) (hsm : sm = superMajorityOf ps.length) :
    stronglySee lf af n sm ps st x y = Except.ok true ↔
      ∃ s, mapSentinels lf af n ps st x y [] = Except.ok s ∧
        superMajorityOf ps.length ≤ s.length := by
  subst hsm
  have hsm1 : 1 ≤ superMajorityOf ps.length := Nat.le_add_left 1 _
  by_cases hx : x = ""
  · subst hx
    constructor
    · intro h; exact absurd h (by simp [stronglySee])
    · rintro ⟨s, hs, hlen⟩
      cases n with
      | zero => simp [mapSentinels] at hs
      | succ m =>
        simp [mapSentinels] at hs
        subst hs
        simp only [List.length_nil] at hlen
        omega
  · by_cases hy : y = ""
    · subst hy
      constructor
      · intro h; exact absurd h (by simp [stronglySee])
      · rintro ⟨s, hs, hlen⟩
        cases n with
        | zero => simp [mapSentinels] at hs
        | succ m =>
          have hsee : see lf af ps st x "" = Except.ok false := by
            simp [see, ancestor]
          simp [mapSentinels, hx, hsee] at hs
          subst hs
          simp only [List.length_nil] at hlen
          omega
    · have hcond : ¬ (x = "" ∨ y = "") := by simp [hx, hy]
      unfold stronglySee stronglySee2
      rw [if_neg hcond]
      cases hms : mapSentinels lf af n ps st x y [] with
      | error e => simp [hms]
      | ok s => simp [hms, ge_iff_le]

/-- Witness for C3: in a single-participant poset the threshold is 1
and the iff holds at the root's first event seeing itself. -/
theorem stronglySee_supermajority_witness :
    (1 = superMajorityOf ([peerA] : Peers).length) ∧
    (stronglySee 2 2 2 1 [peerA] storeX "X" "X" = Except.ok true ↔
      ∃ s, mapSentinels 2 2 2 [peerA] storeX "X" "X" [] = Except.ok s ∧
        superMajorityOf ([peerA] : Peers).length ≤ s.length) :=
  ⟨by decide, stronglySee_supermajority 2 2 2 1 [peerA] storeX "X" "X" (by decide)⟩

end Lachesis

namespace Lachesis

/-- InsertEvent never touches the caches. -/
theorem insertEvent_caches (verify : Event → Bool) (p : PosetState) (e : Event)
    (sw : Bool) : (insertEvent verify p e sw).1.caches = p.caches := by
  simp only [insertEvent]
  repeat' split
  all_goals rfl

/-- Reinserting a list of events never touches the caches. -/
theorem insertEvents_caches (verify : Event → Bool) :
    ∀ (l : List Event) (p : PosetState),
      (insertEvents verify p l).1.caches = p.caches := by
  intro l
  induction l with
  | nil => intro p; rfl
  | cons e rest ih =>
    intro p
    unfold insertEvents
    cases hin : insertEvent verify p e false with
    | mk p' o =>
      have hc : p'.caches = p.caches := by
        have hh := insertEvent_caches verify p e false
        rw [hin] at hh; exact hh
      cases o with
      | none => simp only [hin]; rw [ih p', hc]
      | some err => simp only [hin]; exact hc

/-- `setLastConsensusRound` never touches the caches. -/
theorem setLastConsensusRoundFn_caches (q : PosetState) (i : Int) :
    (setLastConsensusRoundFn q i).caches = q.caches := by
  simp only [setLastConsensusRoundFn]
  split <;> rfl

/-- Claim C6 (amended): Reset re-creates the ancestor, self-ancestor,
strongly-see and round caches but leaves the timestamp cache exactly
as it was before the Reset. -/
theorem posetReset_cache_invalidate (verify : Event → Bool) (p : PosetState)
    (block : Block) (frame : Frame) (p' : PosetState) (err : Option PErr)
    (h : posetReset verify p block frame = (p', err)) :
    p'.caches.ancestorC = [] ∧ p'.caches.selfAncestorC = [] ∧
    p'.caches.stronglySeeC = [] ∧ p'.caches.roundC = [] ∧
    p'.caches.timestampC = p.caches.timestampC := by
  have h1 : p' = (posetReset verify p block frame).1 := by rw [h]
  have hc : (posetReset verify p block frame).1.caches
      = { ancestorC := [], selfAncestorC := [], stronglySeeC := [],
          roundC := [], timestampC := p.caches.timestampC } := by
    unfold posetReset
    rw [insertEvents_caches, setLastConsensusRoundFn_caches]
  rw [h1, hc]
  exact ⟨rfl, rfl, rfl, rfl, rfl⟩

/-- Witness for the amended C6: a concrete Reset run. -/
theorem posetReset_cache_invalidate_witness :
    (posetReset (fun _ => true) poisonedPoset resetBlock resetFrame
      = ((posetReset (fun _ => true) poisonedPoset resetBlock resetFrame).1,
         (posetReset (fun _ => true) poisonedPoset resetBlock resetFrame).2)) ∧
    ((posetReset (fun _ => true) poisonedPoset resetBlock
        resetFrame).1.caches.ancestorC = [] ∧
      (posetReset (fun _ => true) poisonedPoset resetBlock
        resetFrame).1.caches.selfAncestorC = [] ∧
      (posetReset (fun _ => true) poisonedPoset resetBlock
        resetFrame).1.caches.stronglySeeC = [] ∧
      (posetReset (fun _ => true) poisonedPoset resetBlock
        resetFrame).1.caches.roundC = [] ∧
      (posetReset (fun _ => true) poisonedPoset resetBlock
        resetFrame).1.caches.timestampC = poisonedPoset.caches.timestampC) :=
  ⟨rfl, posetReset_cache_invalidate _ _ _ _ _ _ rfl⟩

end Lachesis

namespace Lachesis

/-- A fold whose step preserves the last consensus round preserves it
over any list. -/
theorem foldl_lcr_preserve {α : Type} (f : PosetState → α → PosetState)
    (hf : ∀ q a, (f q a).lastConsensusRound = q.lastConsensusRound) :
    ∀ (l : List α) (q : PosetState),
      (List.foldl f q l).lastConsensusRound = q.lastConsensusRound := by
  intro l
  induction l with
  | nil => intro q; rfl
  | cons a rest ih => intro q; rw [List.foldl_cons, ih, hf]

/-- Committing the frame events never touches the last consensus
round. -/
theorem commitFrameEvents_lcr (evs : List Event) (q : PosetState) :
    (commitFrameEvents q evs).lastConsensusRound = q.lastConsensusRound := by
  refine foldl_lcr_preserve _ ?_ evs q
  intro q a
  dsimp only
  split <;> rfl

/-- The whole per-round commit step never touches the last consensus
round. -/
theorem commitFrame_lcr (q : PosetState) (frame : Frame) :
    (commitFrame q frame).lastConsensusRound = q.lastConsensusRound := by
  simp only [commitFrame]
  split
  · split
    · exact commitFrameEvents_lcr frame.events q
    · exact commitFrameEvents_lcr frame.events q
  · rfl

/-- `setLastConsensusRound` sets the cursor. -/
theorem setLastConsensusRoundFn_lcr (q : PosetState) (i : Int) :
    (setLastConsensusRoundFn q i).lastConsensusRound = some i := by
  simp only [setLastConsensusRoundFn]
  split <;> rfl

/-- The loop of ProcessDecidedRounds only moves the last consensus
round upward. -/
theorem processDecidedRoundsGo_lcr_mono (frameFn : Int → Except PErr Frame) :
    ∀ (l : List PendingRound) (p : PosetState) (k : Nat) (v : Int),
      p.lastConsensusRound = some v →
      ∃ w, (processDecidedRoundsGo frameFn p l k).1.lastConsensusRound = some w ∧
        v ≤ w := by
  intro l
  induction l with
  | nil => intro p k v h; exact ⟨v, h, le_refl v⟩
  | cons r rest ih =>
    intro p k v h
    simp only [processDecidedRoundsGo]
    split
    · exact ⟨v, h, le_refl v⟩
    · split
      · exact ih p k v h
      · cases hfe : frameFn r.index with
        | error e => simp only [hfe]; exact ⟨v, h, le_refl v⟩
        | ok frame =>
          simp only [hfe]
          cases hgr : getRound p.store r.index with
          | none => simp only [hgr]; exact ⟨v, h, le_refl v⟩
          | some tr =>
            simp only [hgr]
            have hcf : (commitFrame p frame).lastConsensusRound = some v := by
              rw [commitFrame_lcr, h]
            by_cases hgt : r.index > v
            · simp only [hcf, decide_eq_true hgt, if_true]
              obtain ⟨w, hw, hvw⟩ :=
                ih (setLastConsensusRoundFn (commitFrame p frame) r.index)
                  (k + 1) r.index (setLastConsensusRoundFn_lcr _ _)
              exact ⟨w, hw, le_trans (le_of_lt hgt) hvw⟩
            · simp only [hcf, decide_eq_false hgt, Bool.false_eq_true, if_false]
              exact ih (commitFrame p frame) (k + 1) v hcf

/-- When every pending index is at or below the cursor, the loop
leaves the cursor unchanged. -/
theorem processDecidedRoundsGo_lcr_le (frameFn : Int → Except PErr Frame) :
    ∀ (l : List PendingRound) (p : PosetState) (k : Nat) (v : Int),
      p.lastConsensusRound = some v →
      (∀ r ∈ l, r.index ≤ v) →
      (processDecidedRoundsGo frameFn p l k).1.lastConsensusRound = some v := by
  intro l
  induction l with
  | nil => intro p k v h _; exact h
  | cons r rest ih =>
    intro p k v h hb
    have hbr : r.index ≤ v := hb r (List.mem_cons_self r rest)
    have hbrest : ∀ r' ∈ rest, r'.index ≤ v :=
      fun r' hm => hb r' (List.mem_cons_of_mem r hm)
    simp only [processDecidedRoundsGo]
    split
    · exact h
    · split
      · exact ih p k v h hbrest
      · cases hfe : frameFn r.index with
        | error e => simp only [hfe]; exact h
        | ok frame =>
          simp only [hfe]
          cases hgr : getRound p.store r.index with
          | none => simp only [hgr]; exact h
          | some tr =>
            simp only [hgr]
            have hcf : (commitFrame p frame).lastConsensusRound = some v := by
              rw [commitFrame_lcr, h]
            have hgt : ¬ (r.index > v) := not_lt.mpr hbr
            simp only [hcf, decide_eq_false hgt, Bool.false_eq_true, if_false]
            exact ih (commitFrame p frame) (k + 1) v hcf hbrest

/-- Claim C10: across one run of ProcessDecidedRounds the last
consensus round never decreases, and when every pending round's index
is at or below the cursor the cursor is left exactly unchanged. -/
theorem processDecidedRounds_lcr_monotone (frameFn : Int → Except PErr Frame)
    (p p' : PosetState) (err : Option PErr)
    (h : processDecidedRounds frameFn p = (p', err)) :
    (∀ v, p.lastConsensusRound = some v →
      ∃ w, p'.lastConsensusRound = some w ∧ v ≤ w) ∧
    (∀ v, p.lastConsensusRound = some v →
      (∀ r ∈ p.pendingRounds, r.index ≤ v) →
      p'.lastConsensusRound = some v) := by
  have h1 : p' = (processDecidedRounds frameFn p).1 := by rw [h]
  subst h1
  constructor
  · intro v hv
    obtain ⟨w, hw, hvw⟩ :=
      processDecidedRoundsGo_lcr_mono frameFn p.pendingRounds p 0 v hv
    refine ⟨w, ?_, hvw⟩
    unfold processDecidedRounds
    cases hgo : processDecidedRoundsGo frameFn p p.pendingRounds 0 with
    | mk q tail =>
      rw [hgo] at hw
      exact hw
  · intro v hv hb
    have hw := processDecidedRoundsGo_lcr_le frameFn p.pendingRounds p 0 v hv hb
    unfold processDecidedRounds
    cases hgo : processDecidedRoundsGo frameFn p p.pendingRounds 0 with
    | mk q tail =>
      rw [hgo] at hw
      exact hw

/-- Witness for C10: a concrete run advancing the cursor from 0 to 1. -/
theorem processDecidedRounds_lcr_monotone_witness :
    (processDecidedRounds (fun _ => Except.ok resetFrame) pdrPoset
      = ((processDecidedRounds (fun _ => Except.ok resetFrame) pdrPoset).1,
         (processDecidedRounds (fun _ => Except.ok resetFrame) pdrPoset).2)) ∧
    ((∀ v, pdrPoset.lastConsensusRound = some v →
      ∃ w, (processDecidedRounds (fun _ => Except.ok resetFrame)
          pdrPoset).1.lastConsensusRound = some w ∧ v ≤ w) ∧
     (∀ v, pdrPoset.lastConsensusRound = some v →
      (∀ r ∈ pdrPoset.pendingRounds, r.index ≤ v) →
      (processDecidedRounds (fun _ => Except.ok resetFrame)
          pdrPoset).1.lastConsensusRound = some v)) :=
  ⟨rfl, processDecidedRounds_lcr_monotone (fun _ => Except.ok resetFrame)
    pdrPoset
    (processDecidedRounds (fun _ => Except.ok resetFrame) pdrPoset).1
    (processDecidedRounds (fun _ => Except.ok resetFrame) pdrPoset).2 rfl⟩

end Lachesis

namespace Lachesis

/-- An empty Go loop range. -/
theorem intRange_nil {a b : Int} (h : b < a) : intRange a b = [] := by
  have hn : (b + 1 - a).toNat = 0 := by omega
  simp [intRange, hn]

/-- Unfolding one iteration of a Go loop range. -/
theorem intRange_cons {a b : Int} (h : a ≤ b) :
    intRange a b = a :: intRange (a + 1) b := by
  have hn : (b + 1 - a).toNat = (b + 1 - (a + 1)).toNat + 1 := by omega
  unfold intRange
  rw [hn, List.range_succ_eq_map, List.map_cons, List.map_map]
  congr 1
  · simp
  · have hfun : ((fun k : Nat => a + (k : Int)) ∘ Nat.succ)
        = fun k : Nat => a + 1 + (k : Int) := by
      funext k
      simp only [Function.comp_apply, Nat.succ_eq_add_one]
      push_cast
      ring
    rw [hfun]

/-- The round scan assigns round i exactly when i is the first round
of the range that is decided and qualifying, all rounds before it in
the range being decided and not qualifying. -/
theorem drrLoop_assign_iff (seeFn : String → String → Bool) (st : Store)
    (lcrSkip : Bool) (x : String) (hx : (getEvent st x).isSome) :
    ∀ (n : Nat) (a b : Int), (b + 1 - a).toNat = n →
      (∀ j, a ≤ j → j ≤ b → (getRound st j).isSome) →
      ∀ i, (∃ st2 bb, drrLoop seeFn st lcrSkip x (intRange a b)
            = Except.ok (st2, bb, some i)) ↔
        (a ≤ i ∧ i ≤ b ∧ drrQualRound seeFn x st i ∧
          ∀ j, a ≤ j → j < i → drrSkipRound seeFn x st j) := by
  intro n
  induction n with
  | zero =>
    intro a b hn hex i
    have hba : b < a := by omega
    rw [intRange_nil hba]
    constructor
    · rintro ⟨st2, bb, hh⟩
      simp [drrLoop] at hh
    · rintro ⟨hai, hib, _, _⟩
      omega
  | succ m ih =>
    intro a b hn hex i
    have hab : a ≤ b := by omega
    rw [intRange_cons hab]
    obtain ⟨tra, htra⟩ := Option.isSome_iff_exists.mp (hex a (le_refl a) hab)
    simp only [drrLoop, htra]
    by_cases hdec : tra.witnessesDecided
    · simp only [hdec, Bool.not_true, Bool.false_eq_true, if_false]
      by_cases hq : drrQualB seeFn x tra
      · obtain ⟨ex, hgx⟩ := Option.isSome_iff_exists.mp hx
        simp only [hq, if_true, hgx]
        constructor
        · rintro ⟨st2, bb, hh⟩
          simp only [Except.ok.injEq, Prod.mk.injEq, Option.some.injEq] at hh
          obtain ⟨-, -, hia⟩ := hh
          subst hia
          refine ⟨le_refl a, hab, ⟨tra, htra, hdec, hq⟩, ?_⟩
          intro j hj1 hj2
          omega
        · rintro ⟨hai, hib, hqi, hskip⟩
          rcases eq_or_lt_of_le hai with heq | hlt
          · subst heq
            exact ⟨_, _, rfl⟩
          · obtain ⟨trj, hj1, -, hj3⟩ := hskip a (le_refl a) hlt
            rw [htra] at hj1
            injection hj1 with hj1
            subst hj1
            rw [hq] at hj3
            cases hj3
      · rw [Bool.not_eq_true] at hq
        simp only [hq, Bool.false_eq_true, if_false]
        have hex2 : ∀ j, a + 1 ≤ j → j ≤ b → (getRound st j).isSome :=
          fun j h1 h2 => hex j (by omega) h2
        have hn2 : (b + 1 - (a + 1)).toNat = m := by omega
        rw [ih (a + 1) b hn2 hex2 i]
        constructor
        · rintro ⟨ha1i, hib, hqi, hskip⟩
          refine ⟨by omega, hib, hqi, ?_⟩
          intro j hj1 hj2
          rcases eq_or_lt_of_le hj1 with heq | hlt
          · subst heq
            exact ⟨tra, htra, hdec, hq⟩
          · exact hskip j (by omega) hj2
        · rintro ⟨hai, hib, hqi, hskip⟩
          rcases eq_or_lt_of_le hai with heq | hlt
          · subst heq
            obtain ⟨tri, hi1, -, hi3⟩ := hqi
            rw [htra] at hi1
            injection hi1 with hi1
            subst hi1
            rw [hq] at hi3
            cases hi3
          · refine ⟨by omega, hib, hqi, ?_⟩
            intro j hj1 hj2
            exact hskip j (by omega) hj2
    · rw [Bool.not_eq_true] at hdec
      simp only [hdec, Bool.not_false, if_true]
      constructor
      · rintro ⟨st2, bb, hh⟩
        simp at hh
      · rintro ⟨hai, hib, hqi, hskip⟩
        rcases eq_or_lt_of_le hai with heq | hlt
        · subst heq
          obtain ⟨tri, hi1, hi2, -⟩ := hqi
          rw [htra] at hi1
          injection hi1 with hi1
          subst hi1
          rw [hdec] at hi2
          cases hi2
        · obtain ⟨trj, hj1, hj2, -⟩ := hskip a (le_refl a) hlt
          rw [htra] at hj1
          injection hj1 with hj1
          subst hj1
          rw [hdec] at hj2
          cases hj2

/-- When the round scan assigns round i, the received flag is set and
the store carries exactly the round-received update and the
consensus-event record. -/
theorem drrLoop_assign_effect (seeFn : String → String → Bool) (st : Store)
    (lcrSkip : Bool) (x : String) :
    ∀ (L : List Int) (st2 : Store) (bb : Bool) (i : Int),
      drrLoop seeFn st lcrSkip x L = Except.ok (st2, bb, some i) →
      bb = true ∧ ∃ ex tr, getEvent st x = some ex ∧ getRound st i = some tr ∧
        tr.witnessesDecided = true ∧ drrQualB seeFn x tr = true ∧
        st2 = setRound (setEvent st { ex with roundReceived := some i }) i
          (tr.setConsensusEvent x) := by
  intro L
  induction L with
  | nil =>
    intro st2 bb i hh
    simp [drrLoop] at hh
  | cons a rest ih =>
    intro st2 bb i hh
    simp only [drrLoop] at hh
    cases hra : getRound st a with
    | none =>
      rw [hra] at hh
      by_cases hl : lcrSkip
      · simp [hl] at hh
      · simp [hl] at hh
    | some tra =>
      rw [hra] at hh
      by_cases hdec : tra.witnessesDecided
      · simp only [hdec, Bool.not_true, Bool.false_eq_true, if_false] at hh
        by_cases hq : drrQualB seeFn x tra
        · simp only [hq, if_true] at hh
          cases hgx : getEvent st x with
          | none => rw [hgx] at hh; cases hh
          | some ex0 =>
            rw [hgx] at hh
            simp only [Except.ok.injEq, Prod.mk.injEq, Option.some.injEq] at hh
            obtain ⟨h1, h2, h3⟩ := hh
            subst h3
            exact ⟨h2.symm, ex0, tra, rfl, hra, hdec, hq, h1.symm⟩
        · rw [Bool.not_eq_true] at hq
          simp only [hq, Bool.false_eq_true, if_false] at hh
          exact ih st2 bb i hh
      · rw [Bool.not_eq_true] at hdec
        simp only [hdec, Bool.not_false, if_true] at hh
        simp at hh

end Lachesis

namespace Lachesis

/-- Unfolding of `decideRoundReceivedOne` into its round scan. -/
theorem decideRoundReceivedOne_eq (seeFn : String → String → Bool)
    (roundFn : String → Int) (p : PosetState) (x : String) :
    decideRoundReceivedOne seeFn roundFn p x =
      match drrLoop seeFn p.store
          (match p.lastConsensusRound with
           | some v => decide (roundFn x < v)
           | none => false) x
          (intRange (roundFn x + 1) (lastRound p.store)) with
      | .error e => .error e
      | .ok (st, received, assigned) =>
          .ok ({ p with store := st }, received, assigned) := rfl

/-- Claim C4: DecideRoundReceived assigns roundReceived(x) = i exactly
when i is the first round after round(x), scanned upward and stopping
at the first round with undecided witnesses, whose famous witnesses
all see x and number at least one; x is then recorded in round i's
consensus-event list (and the received flag set), and a received
event is dropped from the undetermined queue. -/
theorem decideRoundReceived_first_qualifying (seeFn : String → String → Bool)
    (roundFn : String → Int) (p : PosetState) (x : String) (ex : Event)
    (hx : getEvent p.store x = some ex)
    (hexr : ∀ j, roundFn x + 1 ≤ j → j ≤ lastRound p.store →
      (getRound p.store j).isSome) :
    (∀ i, (∃ res, decideRoundReceivedOne seeFn roundFn p x = Except.ok res ∧
          res.2.2 = some i) ↔
        (roundFn x < i ∧ i ≤ lastRound p.store ∧
          drrQualRound seeFn x p.store i ∧
          ∀ j, roundFn x < j → j < i → drrSkipRound seeFn x p.store j)) ∧
    (∀ res i, decideRoundReceivedOne seeFn roundFn p x = Except.ok res →
      res.2.2 = some i →
      res.2.1 = true ∧
      ∃ tr, getRound p.store i = some tr ∧
        res.1.store = setRound (setEvent p.store
            { ex with roundReceived := some i }) i (tr.setConsensusEvent x)) ∧
    (p.undeterminedEvents = [x] →
      ∀ res, decideRoundReceivedOne seeFn roundFn p x = Except.ok res →
      decideRoundReceived seeFn roundFn p
        = Except.ok { res.1 with
            undeterminedEvents := if res.2.1 then [] else [x] }) := by
  have hxs : (getEvent p.store x).isSome := by rw [hx]; rfl
  have hconv : ∀ i : Int,
      (roundFn x + 1 ≤ i ∧ i ≤ lastRound p.store ∧
        drrQualRound seeFn x p.store i ∧
        ∀ j, roundFn x + 1 ≤ j → j < i → drrSkipRound seeFn x p.store j) ↔
      (roundFn x < i ∧ i ≤ lastRound p.store ∧
        drrQualRound seeFn x p.store i ∧
        ∀ j, roundFn x < j → j < i → drrSkipRound seeFn x p.store j) := by
    intro i
    constructor
    · rintro ⟨h1, h2, h3, h4⟩
      exact ⟨by omega, h2, h3, fun j hj1 hj2 => h4 j (by omega) hj2⟩
    · rintro ⟨h1, h2, h3, h4⟩
      exact ⟨by omega, h2, h3, fun j hj1 hj2 => h4 j (by omega) hj2⟩
  cases hdl : drrLoop seeFn p.store
      (match p.lastConsensusRound with
       | some v => decide (roundFn x < v)
       | none => false) x
      (intRange (roundFn x + 1) (lastRound p.store)) with
  | error e =>
    refine ⟨?_, ?_, ?_⟩
    · intro i
      have hiff := drrLoop_assign_iff seeFn p.store
        (match p.lastConsensusRound with
         | some v => decide (roundFn x < v)
         | none => false) x hxs
        ((lastRound p.store + 1 - (roundFn x + 1)).toNat)
        (roundFn x + 1) (lastRound p.store) rfl hexr i
      rw [hdl] at hiff
      simp only [false_iff, reduceCtorEq, exists_false] at hiff
      constructor
      · rintro ⟨res, hres, -⟩
        rw [decideRoundReceivedOne_eq, hdl] at hres
        cases hres
      · intro hr
        exact absurd ((hconv i).mpr hr) hiff
    · intro res i hres
      rw [decideRoundReceivedOne_eq, hdl] at hres
      cases hres
    · intro _ res hres
      rw [decideRoundReceivedOne_eq, hdl] at hres
      cases hres
  | ok trip =>
    obtain ⟨st2, bb, oi⟩ := trip
    have heqn : decideRoundReceivedOne seeFn roundFn p x
        = Except.ok ({ p with store := st2 }, bb, oi) := by
      rw [decideRoundReceivedOne_eq, hdl]
    refine ⟨?_, ?_, ?_⟩
    · intro i
      have hiff := drrLoop_assign_iff seeFn p.store
        (match p.lastConsensusRound with
         | some v => decide (roundFn x < v)
         | none => false) x hxs
        ((lastRound p.store + 1 - (roundFn x + 1)).toNat)
        (roundFn x + 1) (lastRound p.store) rfl hexr i
      rw [hdl] at hiff
      constructor
      · rintro ⟨res, hres, hassign⟩
        rw [heqn] at hres
        injection hres with hres
        subst hres
        have hoi : oi = some i := hassign
        exact (hconv i).mp (hiff.mp ⟨st2, bb, by rw [hoi]⟩)
      · intro hr
        obtain ⟨st2', bb', heq⟩ := hiff.mpr ((hconv i).mpr hr)
        injection heq with heq2
        refine ⟨({ p with store := st2 }, bb, oi), heqn, ?_⟩
        have hoi : oi = some i :=
          congrArg (fun t : Store × Bool × Option Int => t.2.2) heq2
        exact hoi
    · intro res i hres hassign
      rw [heqn] at hres
      injection hres with hres
      subst hres
      have hoi : oi = some i := hassign
      subst hoi
      obtain ⟨hbb, ex0, tr, hex0, htr, -, -, hst⟩ :=
        drrLoop_assign_effect seeFn p.store
          (match p.lastConsensusRound with
           | some v => decide (roundFn x < v)
           | none => false) x
          (intRange (roundFn x + 1) (lastRound p.store)) st2 bb i hdl
      have hexx : ex0 = ex := by
        rw [hx] at hex0
        injection hex0 with h
        exact h.symm
      subst hexx
      exact ⟨hbb, tr, htr, hst⟩
    · intro hque res hres
      rw [heqn] at hres
      injection hres with hres
      subst hres
      rw [decideRoundReceived, hque]
      simp only [drrAll, heqn, List.nil_append]
  
end Lachesis

namespace Lachesis

/-- Witness for C4: with one decided round 1 whose single famous
witness sees everything, the undetermined event X is assigned
round-received 1. -/
theorem decideRoundReceived_first_qualifying_witness :
    (getEvent drrPoset.store "X" = some eventX) ∧
    (∃ res, decideRoundReceivedOne (fun _ _ => true) (fun _ => (0 : Int))
        drrPoset "X" = Except.ok res ∧ res.2.2 = some 1) :=
  ⟨by decide,
    ((decideRoundReceived_first_qualifying (fun _ _ => true)
        (fun _ => (0 : Int)) drrPoset "X" eventX (by decide)
        (by
          intro j h1 h2
          have h1b : (1 : Int) ≤ j := h1
          have hl : lastRound drrPoset.store = 1 := by decide
          rw [hl] at h2
          have hj : j = 1 := by omega
          subst hj
          decide)).1 1).mpr
      ⟨by decide, by decide,
        ⟨roundW, by decide, by decide, by decide⟩,
        fun j hj1 hj2 => absurd hj2 (by
          have hj1b : (0 : Int) < j := hj1
          omega)⟩⟩

end Lachesis
